import Mathlib

/-!
Verification development for the IRDAI crawl–deduplicate–ingest–retrieve
pipeline (`crawler.py`, `ingestion.py`).  The Python code is shallowly
embedded: pure string manipulation is reimplemented over `List Char`
(Lean `String` is a structure holding `data : List Char`), stateful
operations (SQLite ledger, file store, Chroma collection) become explicit
state passing over lists, and external libraries (requests, BeautifulSoup,
pdfplumber, openpyxl, python-docx, langchain splitter, sentence
transformers, hashlib) appear as function parameters or as pre-parsed
input data, never as stubs of repository logic.
-/

namespace IRDAI

/-- Generic helper: does the list start with the pattern `pat`?
Mirrors Python `str.startswith` on decoded character lists. -/
def listStartsWith : List Char → List Char → Bool
  | [], _ => true
  | _ :: _, [] => false
  | a :: as, b :: bs => a = b && listStartsWith as bs

/-- Split `l` at the first occurrence of `pat`, returning the parts before
and after it, or `none` when `pat` does not occur. -/
def splitFirst (pat : List Char) : List Char → Option (List Char × List Char)
  | [] => if pat.isEmpty then some ([], []) else none
  | c :: rest =>
    if listStartsWith pat (c :: rest) then some ([], (c :: rest).drop pat.length)
    else
      match splitFirst pat rest with
      | some (a, b) => some (c :: a, b)
      | none => none

/-- Substring test: mirrors the Python expression `pat in s` on character
lists. -/
def containsSub (pat l : List Char) : Bool :=
  (splitFirst pat l).isSome

/-- Substring test on strings: mirrors Python `pat in s`. -/
def strContains (s pat : String) : Bool :=
  containsSub pat.data s.data

/-- Whitespace recognized by Python `str.strip()` (ASCII subset). -/
def isSpaceChar (c : Char) : Bool :=
  c = ' ' || c = '\t' || c = '\n' || c = '\r' || c = '\x0b' || c = '\x0c'

/-- Remove leading and trailing whitespace: mirrors Python `str.strip()`. -/
def trimChars (l : List Char) : List Char :=
  ((l.dropWhile isSpaceChar).reverse.dropWhile isSpaceChar).reverse

/-- String version of `trimChars`. -/
def strTrim (s : String) : String :=
  ⟨trimChars s.data⟩

/-- ASCII lower-casing of one character: mirrors Python `str.lower()` on
the ASCII range used by the crawler. -/
def lowerChar (c : Char) : Char :=
  if 'A' ≤ c ∧ c ≤ 'Z' then Char.ofNat (c.toNat + 32) else c

/-- ASCII lower-casing: mirrors Python `str.lower()`. -/
def strToLower (s : String) : String :=
  ⟨s.data.map lowerChar⟩

/-- Mirrors Python `sep.join(parts)`. -/
def interc (sep : String) : List String → String
  | [] => ""
  | [x] => x
  | x :: xs => x ++ sep ++ interc sep xs

/-- Mirrors Python `s.endswith(t)`: the last `t.length` characters of `s`
equal `t`. -/
def strEndsWith (s t : String) : Bool :=
  decide (s.data.drop (s.data.length - t.data.length) = t.data)

/-- Mirrors Python `s.startswith(t)`. -/
def strStartsWith (s t : String) : Bool :=
  listStartsWith t.data s.data

/-- Split a character list on a separator character: mirrors Python
`s.split(sep)` for a one-character separator. -/
def splitOnChar (c : Char) : List Char → List (List Char)
  | [] => [[]]
  | a :: rest =>
    if a = c then [] :: splitOnChar c rest
    else
      match splitOnChar c rest with
      | h :: t => (a :: h) :: t
      | [] => [[a]]

/-- Decimal digit character for a digit value 0–9. -/
def digitChar : Nat → Char
  | 0 => '0'
  | 1 => '1'
  | 2 => '2'
  | 3 => '3'
  | 4 => '4'
  | 5 => '5'
  | 6 => '6'
  | 7 => '7'
  | 8 => '8'
  | 9 => '9'
  | _ => '0'

/-- Decimal digit list of a natural number, most significant first, with
a structural fuel argument (any fuel above the value itself suffices):
mirrors Python `str(n)` for the non-negative integers interpolated into
chunk-id f-strings. -/
def natToDecGo : Nat → Nat → List Char
  | 0, _ => []
  | fuel + 1, n => if n < 10 then [digitChar n] else natToDecGo fuel (n / 10) ++ [digitChar (n % 10)]

/-- Decimal rendering of a natural number: mirrors Python `str(n)`. -/
def natToDec (n : Nat) : String :=
  ⟨natToDecGo (n + 1) n⟩

/-- Numeric value of a decimal digit character. -/
def digitVal (c : Char) : Nat := c.toNat - 48

/-- Value of a most-significant-first decimal digit list. -/
def decValue (l : List Char) : Nat :=
  l.foldl (fun a c => 10 * a + digitVal c) 0

/-- Value of a hexadecimal digit character, or `none`. -/
def hexVal (c : Char) : Option Nat :=
  if '0' ≤ c ∧ c ≤ '9' then some (c.toNat - 48)
  else if 'a' ≤ c ∧ c ≤ 'f' then some (c.toNat - 87)
  else if 'A' ≤ c ∧ c ≤ 'F' then some (c.toNat - 70)
  else none

/-- Percent-decoding of URL escapes, byte-wise over the ASCII range:
mirrors Python `urllib.parse.unquote` for the single-byte escapes that
occur in the crawler's document URLs. -/
def unquoteChars : List Char → List Char
  | [] => []
  | '%' :: a :: b :: rest =>
    match hexVal a, hexVal b with
    | some x, some y => Char.ofNat (16 * x + y) :: unquoteChars rest
    | _, _ => '%' :: unquoteChars (a :: b :: rest)
  | c :: rest => c :: unquoteChars rest

/-- Replace characters outside the printable ASCII range 0x20–0x7E by an
underscore: mirrors the regex substitution in `_extract_doc_filename`. -/
def sanitizeChars (l : List Char) : List Char :=
  l.map (fun c => if 0x20 ≤ c.toNat ∧ c.toNat ≤ 0x7E then c else '_')

/-- Collapse each run of underscores to a single underscore: mirrors the
second regex substitution in `_extract_doc_filename`. -/
def collapseUnderscores : List Char → List Char
  | [] => []
  | c :: rest =>
    match c, collapseUnderscores rest with
    | '_', '_' :: t => '_' :: t
    | _, t => c :: t

/-- Strip leading and trailing underscores: mirrors Python
`str.strip(chr)` for an underscore argument. -/
def stripUnderscores (l : List Char) : List Char :=
  ((l.dropWhile (· = '_')).reverse.dropWhile (· = '_')).reverse

namespace Crawler

/-- Retry bound from `crawler.py`. -/
def MAX_RETRIES : Nat := 3

/-- Backoff base in seconds from `crawler.py`. -/
def BACKOFF_BASE : Nat := 2

/-- Fetched HTTP response: declared content type and body.  The network
transport itself is external (the `requests` library); responses enter
the embedding as data. -/
structure Resp where
  contentType : String
  body : String
deriving DecidableEq, Repr

/-- Loop body of `fetch_with_retry`: given the transport outcome per
attempt number (`none` models a raised `requests.RequestException`,
including non-2xx statuses via `raise_for_status`), walk the attempt
numbers, recording the number of attempts actually made and the sleep
durations performed (seconds).  Per the source, the wait
`BACKOFF_BASE ** attempt` is slept only when `attempt < MAX_RETRIES`. -/
def fetchGo (transport : Nat → Option Resp) : List Nat → Option Resp × Nat × List Nat
  | [] => (none, 0, [])
  | a :: rest =>
    match transport a with
    | some r => (some r, 1, [])
    | none =>
      let tail := fetchGo transport rest
      (tail.1, tail.2.1 + 1, (if a < MAX_RETRIES then [BACKOFF_BASE ^ a] else []) ++ tail.2.2)

/-- Embedding of `fetch_with_retry`: attempts are numbered 1 to
`MAX_RETRIES` as in `range(1, MAX_RETRIES + 1)`.  Returns the result
(`none` models the Python return value `None` after exhaustion — the
function never lets an exception escape), the attempt count, and the
sleeps performed. -/
def fetch_with_retry (transport : Nat → Option Resp) : Option Resp × Nat × List Nat :=
  fetchGo transport (List.range' 1 MAX_RETRIES)

/-- Row of the SQLite `downloads` table (ledger). -/
structure DownloadRow where
  url : String
  filename : String
  category : String
  file_hash : String
deriving DecidableEq, Repr

/-- Durable state touched by the crawler: the download ledger rows and
the document file store (destination path paired with written body). -/
structure CrawlerState where
  ledger : List DownloadRow
  files : List (String × String)
deriving DecidableEq, Repr

/-- Embedding of `is_already_downloaded`: SELECT by unique url. -/
def is_already_downloaded (s : CrawlerState) (url : String) : Bool :=
  s.ledger.any (fun r => r.url = url)

/-- Embedding of `record_download`: INSERT OR IGNORE under the UNIQUE
constraint on `url` — the row is appended only when no row with this url
exists. -/
def record_download (s : CrawlerState) (url filename category file_hash : String) :
    CrawlerState :=
  if s.ledger.any (fun r => r.url = url) then s
  else { s with ledger := s.ledger ++ [⟨url, filename, category, file_hash⟩] }

/-- The `DOC_TYPES` mapping from `crawler.py` (extension to target
directory), in the non-cloud configuration where `_DATA_ROOT` is
`data`. -/
def DOC_TYPES : List (String × String) :=
  [(".pdf", "data/pdfs"), (".xlsx", "data/excel"), (".xls", "data/excel"),
   (".csv", "data/excel"), (".docx", "data/word"), (".doc", "data/word")]

/-- Target directory for an extension, defaulting to the PDF directory:
mirrors `DOC_TYPES.get(ext, PDF_DIR)`. -/
def docTypeDir (ext : String) : String :=
  ((DOC_TYPES.find? (fun p => p.1 = ext)).map Prod.snd).getD "data/pdfs"

/-- File-type label used in `download_document` and `crawl_category`. -/
def fileTypeOf (ext : String) : String :=
  if ext = ".pdf" then "pdf"
  else if ext = ".xlsx" ∨ ext = ".xls" ∨ ext = ".csv" then "excel"
  else "word"

/-- Path component of a URL: mirrors `urllib.parse.urlparse(url).path`
for the absolute and relative http(s) URLs the crawler handles — the
fragment and query are cut off, and when a scheme/netloc part is present
it is skipped up to the first slash of the path. -/
def urlparsePath (url : String) : String :=
  let noFrag := url.data.takeWhile (· ≠ '#')
  let noQuery := noFrag.takeWhile (· ≠ '?')
  match splitFirst [':', '/', '/'] noQuery with
  | some (_, rest) => ⟨rest.dropWhile (· ≠ '/')⟩
  | none =>
    if listStartsWith ['/', '/'] noQuery then ⟨(noQuery.drop 2).dropWhile (· ≠ '/')⟩
    else ⟨noQuery⟩

/-- Sanitization pipeline applied to a candidate path segment in
`_extract_doc_filename`: unquote, replace plus by space, strip, replace
non-printable characters by underscore, collapse underscore runs, strip
underscores. -/
def sanitizeSegment (part : List Char) : List Char :=
  stripUnderscores (collapseUnderscores (sanitizeChars
    (trimChars (unquoteChars part |>.map (fun c => if c = '+' then ' ' else c)))))

/-- Scan the path segments for one containing the extension (on the
lower-cased segment); return its sanitized name when that name is
non-empty and differs from the extension, otherwise keep scanning. -/
def findSegName (ext : String) : List (List Char) → Option (List Char)
  | [] => none
  | part :: rest =>
    if containsSub ext.data (part.map lowerChar) then
      let name := sanitizeSegment part
      if name ≠ [] ∧ name ≠ ext.data then some name else findSegName ext rest
    else findSegName ext rest

/-- Embedding of `_extract_doc_filename`.  The `md5hex` parameter stands
for the external `hashlib.md5(url.encode()).hexdigest()` function; the
fallback name takes its first 8 characters. -/
def extract_doc_filename (md5hex : String → String) (url ext : String) : String :=
  match findSegName ext (splitOnChar '/' (urlparsePath url).data) with
  | some name => ⟨name⟩
  | none => "doc_" ++ ⟨(md5hex url).data.take 8⟩ ++ ext

/-- Embedding of `download_document`.  External effects are parameters:
`md5hex` and `sha256hex` stand for the hashlib digests, `fetchResult`
for the outcome of `fetch_with_retry(url, stream=True)`, and `writeOk`
for whether streaming the body to disk succeeds (an `OSError` during the
write makes the function return `False`).  Note the source performs no
content-type inspection on the response. -/
def download_document (md5hex sha256hex : String → String) (fetchResult : Option Resp)
    (writeOk : Bool) (s : CrawlerState) (url ext category : String) :
    Bool × CrawlerState :=
  if is_already_downloaded s url then (false, s)
  else
    match fetchResult with
    | none => (false, s)
    | some resp =>
      let filename0 := extract_doc_filename md5hex url ext
      let filename := if strEndsWith (strToLower filename0) ext then filename0
                      else filename0 ++ ext
      let dest := docTypeDir ext ++ "/" ++ category ++ "/" ++ filename
      if writeOk then
        let s1 : CrawlerState := { s with files := s.files ++ [(dest, resp.body)] }
        let s2 := record_download s1 url filename (category ++ "_" ++ fileTypeOf ext)
          (sha256hex resp.body)
        (true, s2)
      else (false, s)

/-- Anchor element as produced by the external HTML parser
(BeautifulSoup): its `href` attribute and its visible text as returned by
`get_text(strip=True)`. -/
structure Anchor where
  href : String
  text : String
deriving DecidableEq, Repr

/-- The pagination texts recognized by `get_next_page_url`. -/
def NEXT_TEXTS : List String := ["next", "next page", "›", "»"]

/-- An anchor qualifies as a next-page link when its stripped href is not
a javascript no-op and its lower-cased visible text is one of the
recognized pagination texts. -/
def qualifiesNext (a : Anchor) : Bool :=
  !(strStartsWith (strTrim a.href) "javascript") && strToLower a.text ∈ NEXT_TEXTS

/-- Scheme of a URL, for `urljoin`. -/
def schemeOf (base : String) : List Char :=
  match splitFirst [':', '/', '/'] base.data with
  | some (sch, _) => sch
  | none => []

/-- Scheme and network location of a URL, for `urljoin`. -/
def schemeNetloc (base : String) : List Char :=
  match splitFirst [':', '/', '/'] base.data with
  | some (sch, rest) => sch ++ [':', '/', '/'] ++ rest.takeWhile (· ≠ '/')
  | none => []

/-- Base URL up to and including the final slash, for relative joins. -/
def dirnameOf (base : String) : List Char :=
  (base.data.reverse.dropWhile (· ≠ '/')).reverse

/-- Embedding of `urllib.parse.urljoin` for the reference shapes the
crawler meets: empty, scheme-absolute, protocol-relative, root-relative
and plain relative references against an absolute http(s) base. -/
def urljoin (base url : String) : String :=
  if url.data = [] then base
  else if containsSub [':', '/', '/'] url.data then url
  else if listStartsWith ['/', '/'] url.data then ⟨schemeOf base ++ [':'] ++ url.data⟩
  else if listStartsWith ['/'] url.data then ⟨schemeNetloc base ++ url.data⟩
  else ⟨dirnameOf base ++ url.data⟩

/-- Embedding of `get_next_page_url`: walk the anchors in document order,
skip javascript hrefs, and return the joined URL of the first anchor
whose visible text matches a pagination marker.  The source returns the
joined URL unconditionally — it never compares it with `current_url`. -/
def get_next_page_url (anchors : List Anchor) (current_url : String) : Option String :=
  match anchors with
  | [] => none
  | a :: rest =>
    let href := strTrim a.href
    if strStartsWith href "javascript" then get_next_page_url rest current_url
    else if strToLower a.text ∈ NEXT_TEXTS then some (urljoin current_url href)
    else get_next_page_url rest current_url

/-- Next-page decision made by the caller `crawl_category`: pagination
advances to `u` only when `get_next_page_url` returned some `u` different
from the current URL; otherwise the category's pagination terminates. -/
def crawlNextPage (anchors : List Anchor) (url : String) : Option String :=
  match get_next_page_url anchors url with
  | none => none
  | some u => if u = url then none else some u

end Crawler

namespace Ingestion

/-- Extracted page/sheet record from `ingestion.py`: page index (1-based),
extracted text (already trimmed), source filename. -/
structure PageRec where
  page : Nat
  text : String
  source : String
deriving DecidableEq, Repr

/-- Shared enumerate-and-filter loop of the extractors: page texts are
numbered from `i`, and a page is kept exactly when its (already trimmed)
text is longer than 50 characters. -/
def pagesFrom (source : String) : Nat → List String → List PageRec
  | _, [] => []
  | i, t :: rest =>
    (if 50 < t.data.length then [⟨i, t, source⟩] else []) ++ pagesFrom source (i + 1) rest

/-- Embedding of `extract_text_from_pdf`: the raw per-page texts (as
produced by the external pdfplumber `extract_text() or ""`) are trimmed,
then enumerated from 1 and filtered by the length threshold. -/
def extract_text_from_pdf (name : String) (raws : List String) : List PageRec :=
  pagesFrom name 1 (raws.map strTrim)

/-- Row serialization of `extract_text_from_excel`: cells that are `None`
are skipped, the remaining values are trimmed and joined; a row with no
non-`None` cell yields nothing. -/
def rowText (row : List (Option String)) : Option String :=
  let cells := (row.filterMap id).map strTrim
  if cells.isEmpty then none else some (interc " | " cells)

/-- Sheet serialization of `extract_text_from_excel`: rows joined by
newline, then trimmed. -/
def sheetText (rows : List (List (Option String))) : String :=
  strTrim (interc "\n" (rows.filterMap rowText))

/-- Embedding of `extract_text_from_excel`: one candidate page per sheet,
enumerated from 1 in sheet order, filtered by the length threshold. -/
def extract_text_from_excel (name : String) (sheets : List (List (List (Option String)))) :
    List PageRec :=
  pagesFrom name 1 (sheets.map sheetText)

/-- Document body serialization of `extract_text_from_word`: non-empty
trimmed paragraphs, followed by each table row's non-empty trimmed cells
joined by the delimiter, everything joined by newline and trimmed. -/
def wordText (paragraphs : List String) (tables : List (List (List String))) : String :=
  let paras := (paragraphs.map strTrim).filter (fun t => t.data ≠ [])
  let tableRows := tables.flatMap (fun tbl => tbl.filterMap (fun row =>
    let cells := (row.map strTrim).filter (fun t => t.data ≠ [])
    if cells.isEmpty then none else some (interc " | " cells)))
  strTrim (interc "\n" (paras ++ tableRows))

/-- Embedding of `extract_text_from_word`: a single page with index 1,
kept only when the text passes the length threshold. -/
def extract_text_from_word (name : String) (paragraphs : List String)
    (tables : List (List (List String))) : List PageRec :=
  let text := wordText paragraphs tables
  if 50 < text.data.length then [⟨1, text, name⟩] else []

/-- Chunk record from `chunk_pages`: text, source filename, page index,
0-based chunk index local to the page. -/
structure Chunk where
  text : String
  source : String
  page : Nat
  chunk : Nat
deriving DecidableEq, Repr

/-- Embedding of `chunk_pages`.  The `split` parameter stands for the
external `RecursiveCharacterTextSplitter.split_text`; each page's splits
are enumerated from 0 to produce the per-page chunk indices. -/
def chunk_pages (split : String → List String) (pages : List PageRec) : List Chunk :=
  pages.flatMap (fun p => ((split p.text).enum).map (fun ic => ⟨ic.2, p.source, p.page, ic.1⟩))

/-- Entry stored in the Chroma collection: deterministic id, document
text, and the metadata fields recorded by `ingest_document`.  The
embedding vector itself is produced by the external sentence-transformers
model and plays no role in the claims. -/
structure Entry where
  id : String
  text : String
  source : String
  page : Nat
  typ : String
deriving DecidableEq, Repr

/-- Ids currently stored in a collection, in insertion order. -/
def idsOf (coll : List Entry) : List String :=
  coll.map (fun e => e.id)

/-- Upsert of a single entry: insert-or-replace by id (Chroma `upsert`
semantics — an existing id has its payload overwritten in place, a new id
is appended). -/
def upsert1 (coll : List Entry) (e : Entry) : List Entry :=
  if coll.any (fun x => x.id = e.id) then
    coll.map (fun x => if x.id = e.id then e else x)
  else coll ++ [e]

/-- Upsert of a batch of entries, in order.  The source splits the batch
into groups of 100 per call; the resulting collection state is the same
as upserting one by one. -/
def upsertAll (coll : List Entry) (es : List Entry) : List Entry :=
  es.foldl upsert1 coll

/-- Suffix of a filename: mirrors `pathlib.PurePath.suffix` (the final
dot-suffix, empty when there is no dot or the name is all-suffix). -/
def pathSuffix (name : String) : String :=
  let parts := (splitOnChar '.' name.data).map (fun l => (⟨l⟩ : String))
  match parts with
  | [] => ""
  | [_] => ""
  | _ => if interc "." parts.dropLast = "" then "" else "." ++ parts.getLastD ""

/-- Stem of a filename: mirrors `pathlib.PurePath.stem` (the name with
its final suffix removed). -/
def pathStem (name : String) : String :=
  ⟨name.data.take (name.data.length - (pathSuffix name).data.length)⟩

/-- Document on disk as the ingestion run sees it: its filename, and the
content the external extraction libraries would deliver for it — raw PDF
page texts (pdfplumber), worksheets of rows of optional cells (openpyxl),
and paragraphs plus tables (python-docx).  Only the fields matching the
file's extension are consulted; an extraction failure caught in the
source corresponds to empty content lists. -/
structure Doc where
  name : String
  pdfPages : List String
  sheets : List (List (List (Option String)))
  paragraphs : List String
  tables : List (List (List String))
deriving DecidableEq, Repr

/-- Extension dispatch of `ingest_document`, producing the extracted
pages; unsupported extensions yield no pages. -/
def docPages (d : Doc) : List PageRec :=
  let ext := strToLower (pathSuffix d.name)
  if ext = ".pdf" then extract_text_from_pdf d.name d.pdfPages
  else if ext = ".xlsx" ∨ ext = ".xls" then extract_text_from_excel d.name d.sheets
  else if ext = ".docx" then extract_text_from_word d.name d.paragraphs d.tables
  else []

/-- Deterministic chunk id from `ingest_document`: the f-string
`stem_p<page>_c<chunk>`. -/
def encId (stem : String) (page chunk : Nat) : String :=
  stem ++ "_p" ++ natToDec page ++ "_c" ++ natToDec chunk

/-- Entries a document contributes when ingested: one per chunk, with the
derived id and the metadata recorded by `ingest_document`. -/
def chunkEntries (split : String → List String) (d : Doc) : List Entry :=
  (chunk_pages split (docPages d)).map (fun c =>
    ⟨encId (pathStem d.name) c.page c.chunk, c.text, c.source, c.page,
      strToLower (pathSuffix d.name)⟩)

/-- Ids of the chunks a document contributes. -/
def docIds (split : String → List String) (d : Doc) : List String :=
  (chunkEntries split d).map (fun e => e.id)

/-- Embedding of `ingest_document`: dispatch on the lower-cased suffix
(returning 0 for unsupported types), extract, chunk, and upsert the batch
of entries; returns the chunk count and the new collection state.
Embedding the chunk texts is the external model's work and does not
affect the stored ids or metadata. -/
def ingest_document (split : String → List String) (d : Doc) (coll : List Entry) :
    Nat × List Entry :=
  let ext := strToLower (pathSuffix d.name)
  if ext ∈ ([".pdf", ".xlsx", ".xls", ".docx"] : List String) then
    let pages := docPages d
    if pages = [] then (0, coll)
    else
      let chunks := chunk_pages split pages
      if chunks = [] then (0, coll)
      else (chunks.length, upsertAll coll (chunkEntries split d))
  else (0, coll)

/-- Files on disk under the three document roots, as `run_ingestion`
discovers them with `rglob`. -/
structure FileStore where
  pdfs : List Doc
  excels : List Doc
  words : List Doc
deriving Repr

/-- File discovery of `run_ingestion`: the PDF root is scanned for
`*.pdf`, the Excel root for `*.xlsx` then `*.xls`, the Word root for
`*.docx`; each discovered file is paired with its type label.  Note that
`*.csv` and `*.doc` are never globbed. -/
def discoverFiles (fs : FileStore) : List (Doc × String) :=
  ((fs.pdfs.filter (fun d => strEndsWith d.name ".pdf")).map (fun d => (d, "pdf")))
    ++ ((fs.excels.filter (fun d => strEndsWith d.name ".xlsx")).map (fun d => (d, "excel")))
    ++ ((fs.excels.filter (fun d => strEndsWith d.name ".xls")).map (fun d => (d, "excel")))
    ++ ((fs.words.filter (fun d => strEndsWith d.name ".docx")).map (fun d => (d, "word")))

/-- Presumptive first-chunk id of a file, `stem_p1_c0`, used by
`run_ingestion` for the skip check. -/
def firstId (d : Doc) : String :=
  encId (pathStem d.name) 1 0

/-- Accumulator of the `run_ingestion` loop: the running summary counters
and the collection state. -/
structure RunAcc where
  total_files : Nat
  total_chunks : Nat
  pdf : Nat
  excel : Nat
  word : Nat
  coll : List Entry
deriving Repr

/-- One iteration of the `run_ingestion` loop over a discovered file:
skip it when its presumptive first-chunk id is in the pre-computed
existing-id set, otherwise ingest it and update the counters when it
produced chunks. -/
def ingestStep (split : String → List String) (existing : List String)
    (acc : RunAcc) (df : Doc × String) : RunAcc :=
  if firstId df.1 ∈ existing then acc
  else
    let r := ingest_document split df.1 acc.coll
    if 0 < r.1 then
      { total_files := acc.total_files + 1
        total_chunks := acc.total_chunks + r.1
        pdf := acc.pdf + (if df.2 = "pdf" then 1 else 0)
        excel := acc.excel + (if df.2 = "excel" then 1 else 0)
        word := acc.word + (if df.2 = "word" then 1 else 0)
        coll := r.2 }
    else { acc with coll := r.2 }

/-- Summary returned by `run_ingestion`. -/
structure RunSummary where
  total_files : Nat
  total_chunks : Nat
  pdf : Nat
  excel : Nat
  word : Nat
deriving DecidableEq, Repr

/-- Embedding of `run_ingestion`: the existing-id set is listed once from
the collection (the source pages through `collection.get` in batches —
the union of the batches is exactly the id list), files are discovered,
and each is processed in order.  Returns the summary and the final
collection state. -/
def run_ingestion (split : String → List String) (fs : FileStore) (coll : List Entry) :
    RunSummary × List Entry :=
  let existing := idsOf coll
  let final := (discoverFiles fs).foldl (ingestStep split existing)
    ⟨0, 0, 0, 0, 0, coll⟩
  (⟨final.total_files, final.total_chunks, final.pdf, final.excel, final.word⟩, final.coll)

/-- Ids of all chunks produced during a single run of `run_ingestion`
(over all non-skipped files, pages and chunk indices). -/
def runProducedIds (split : String → List String) (fs : FileStore) (coll : List Entry) :
    List String :=
  let existing := idsOf coll
  (discoverFiles fs).flatMap (fun df =>
    if firstId df.1 ∈ existing then [] else docIds split df.1)

/-- Retrieval result record returned by `retrieve_relevant_chunks`. -/
structure RChunk where
  text : String
  source : String
  page : Nat
  score : Rat
deriving DecidableEq, Repr

/-- Insertion step of the nearest-neighbour ordering by distance. -/
def insertByDist (dist : Entry → Rat) (e : Entry) : List Entry → List Entry
  | [] => [e]
  | x :: xs => if dist e ≤ dist x then e :: x :: xs else x :: insertByDist dist e xs

/-- Entries ordered by ascending distance to the query embedding, as the
vector index's nearest-neighbour query returns them. -/
def sortByDist (dist : Entry → Rat) (l : List Entry) : List Entry :=
  l.foldr (insertByDist dist) []

/-- Rounding to four decimal places, mirroring `round(x, 4)` applied to
the similarity score. -/
def round4 (x : Rat) : Rat :=
  (Rat.floor (x * 10000 + 1 / 2) : Rat) / 10000

/-- Embedding of `retrieve_relevant_chunks`.  The external embedding
model and cosine distance are folded into the `dist` parameter, which
gives each stored entry its distance to the query.  The source returns
an empty list when the collection is empty, and otherwise queries the
index with `min(n_results, collection.count())` neighbours; each result
carries the similarity score `round(1 - dist, 4)`. -/
def retrieve_relevant_chunks (dist : Entry → Rat) (coll : List Entry) (n_results : Nat) :
    List RChunk :=
  if coll.length = 0 then []
  else
    let k := min n_results coll.length
    ((sortByDist dist coll).take k).map (fun e =>
      ⟨e.text, e.source, e.page, round4 (1 - dist e)⟩)

end Ingestion

/-! Helper lemmas. -/

/-- Length is preserved by the distance-ordered insertion. -/
theorem length_insertByDist (dist : Ingestion.Entry → Rat) (e : Ingestion.Entry) :
    ∀ l : List Ingestion.Entry, (Ingestion.insertByDist dist e l).length = l.length + 1 := by
  intro l
  induction l with
  | nil => rfl
  | cons x xs ih =>
    by_cases h : dist e ≤ dist x <;> simp [Ingestion.insertByDist, h, ih]

/-- Length is preserved by the distance ordering. -/
theorem length_sortByDist (dist : Ingestion.Entry → Rat) (l : List Ingestion.Entry) :
    (Ingestion.sortByDist dist l).length = l.length := by
  induction l with
  | nil => rfl
  | cons x xs ih => simp [Ingestion.sortByDist, List.foldr] at ih ⊢
                    rw [length_insertByDist, ih]

/-! Claim C4. -/

/-- Claim C4, counterexample: against an always-failing transport,
`fetch_with_retry` sleeps 2s after the first failed attempt and 4s after
the second, but performs no 8s sleep after the third — the recorded delay
list is `[2, 4]`, not the claimed `[2, 4, 8]`. -/
theorem fetch_with_retry_delays_counterexample :
    (Crawler.fetch_with_retry (fun _ => none)).2.2 = [2, 4] ∧
      ([2, 4] : List Nat) ≠ [2, 4, 8] := by
  exact ⟨rfl, by decide⟩

/-- Claim C4, amended: for every transport that fails on every attempt,
`fetch_with_retry` makes exactly 3 attempts, waits 2s after the first
failed attempt and 4s after the second, does not wait after the third,
and returns the typed failure value `none` (the exception never escapes
the function). -/
theorem fetch_with_retry_exhaustion (transport : Nat → Option Crawler.Resp)
    (h : ∀ k, transport k = none) :
    Crawler.fetch_with_retry transport = (none, 3, [2, 4]) := by
  have hr : List.range' 1 Crawler.MAX_RETRIES = [1, 2, 3] := rfl
  rw [Crawler.fetch_with_retry, hr]
  simp [Crawler.fetchGo, h, Crawler.MAX_RETRIES, Crawler.BACKOFF_BASE]

/-- Claim C4, witness: the amended theorem applied to the concrete
always-failing transport. -/
theorem fetch_with_retry_exhaustion_witness :
    Crawler.fetch_with_retry (fun _ => none) = (none, 3, [2, 4]) :=
  fetch_with_retry_exhaustion (fun _ => none) (fun _ => rfl)

/-! Claim C6. -/

/-- Claim C6: for a URL already present in the ledger, `download_document`
returns `false` and leaves the state fully unchanged — for every possible
fetch outcome and write outcome, so in particular no file is written and
no ledger row is added or modified; and `record_download` on an
already-recorded URL leaves the ledger rows unchanged (insert-if-absent). -/
theorem download_document_idempotency_gate
    (md5hex sha256hex : String → String) (fetchResult : Option Crawler.Resp)
    (writeOk : Bool) (s : Crawler.CrawlerState)
    (url ext category filename file_hash : String) :
    (Crawler.is_already_downloaded s url = true →
      Crawler.download_document md5hex sha256hex fetchResult writeOk s url ext category
        = (false, s)) ∧
    (Crawler.is_already_downloaded s url = true →
      Crawler.record_download s url filename category file_hash = s) := by
  constructor
  · intro h
    simp [Crawler.download_document, h]
  · intro h
    rw [Crawler.is_already_downloaded] at h
    simp [Crawler.record_download, h]

/-- Claim C6, witness: the theorem applied to a concrete one-row ledger
holding the URL being re-downloaded and re-recorded. -/
theorem download_document_idempotency_gate_witness :
    Crawler.download_document (fun _ => "") (fun _ => "") none true
        ⟨[⟨"u", "f", "c", "h"⟩], []⟩ "u" ".pdf" "cat"
      = (false, ⟨[⟨"u", "f", "c", "h"⟩], []⟩) ∧
    Crawler.record_download ⟨[⟨"u", "f", "c", "h"⟩], []⟩ "u" "f2" "c2" "h2"
      = ⟨[⟨"u", "f", "c", "h"⟩], []⟩ := by
  have h := download_document_idempotency_gate (fun _ => "") (fun _ => "") none true
    ⟨[⟨"u", "f", "c", "h"⟩], []⟩ "u" ".pdf" "cat" "f2" "h2"
  exact ⟨h.1 (by decide), h.2 (by decide)⟩

/-! Claim C2. -/

/-- Claim C2, counterexample: `download_document` performs no content-type
verification.  A `.pdf` candidate whose fetched response declares content
type `text/html` — containing neither "pdf" nor "octet-stream" — is
nevertheless written to the file store and recorded in the ledger,
contradicting the claim that such a document is skipped. -/
theorem download_document_content_type_counterexample :
    strContains "text/html" "pdf" = false ∧
    strContains "text/html" "octet-stream" = false ∧
    (Crawler.download_document (fun _ => "0123456789abcdef") (fun _ => "hash")
        (some ⟨"text/html", "htmlbody"⟩) true ⟨[], []⟩
        "https://irdai.gov.in/documents/report.pdf" ".pdf" "circulars").1 = true ∧
    ((Crawler.download_document (fun _ => "0123456789abcdef") (fun _ => "hash")
        (some ⟨"text/html", "htmlbody"⟩) true ⟨[], []⟩
        "https://irdai.gov.in/documents/report.pdf" ".pdf" "circulars").2).ledger.length = 1 ∧
    ((Crawler.download_document (fun _ => "0123456789abcdef") (fun _ => "hash")
        (some ⟨"text/html", "htmlbody"⟩) true ⟨[], []⟩
        "https://irdai.gov.in/documents/report.pdf" ".pdf" "circulars").2).files.length = 1 := by
  decide

/-- Claim C2, amended: `download_document` never inspects the declared
content type.  For a URL not yet in the ledger, the outcome is identical
for any two successful responses sharing a body (whatever their content
types), and when the write succeeds the document is written to the store
and recorded in the ledger regardless of content type. -/
theorem download_document_ignores_content_type
    (md5hex sha256hex : String → String) (writeOk : Bool) (s : Crawler.CrawlerState)
    (url ext category : String) (resp resp' : Crawler.Resp)
    (hnew : Crawler.is_already_downloaded s url = false)
    (hbody : resp.body = resp'.body) :
    Crawler.download_document md5hex sha256hex (some resp) writeOk s url ext category
      = Crawler.download_document md5hex sha256hex (some resp') writeOk s url ext category ∧
    ((Crawler.download_document md5hex sha256hex (some resp) true s url ext
        category).2).ledger.length = s.ledger.length + 1 ∧
    ((Crawler.download_document md5hex sha256hex (some resp) true s url ext
        category).2).files.length = s.files.length + 1 := by
  rw [Crawler.is_already_downloaded] at hnew
  refine ⟨?_, ?_, ?_⟩
  · simp only [Crawler.download_document, Crawler.is_already_downloaded, hnew, hbody,
      Bool.false_eq_true, if_false]
  · simp [Crawler.download_document, Crawler.is_already_downloaded, hnew,
      Crawler.record_download]
  · simp [Crawler.download_document, Crawler.is_already_downloaded, hnew,
      Crawler.record_download]

/-- Claim C2, witness: the amended theorem applied to a fresh state and
two responses that differ only in their declared content type. -/
theorem download_document_ignores_content_type_witness :
    Crawler.download_document (fun _ => "0123456789abcdef") (fun _ => "hash")
        (some ⟨"text/html", "body"⟩) true ⟨[], []⟩ "https://x/a.pdf" ".pdf" "c"
      = Crawler.download_document (fun _ => "0123456789abcdef") (fun _ => "hash")
        (some ⟨"application/pdf", "body"⟩) true ⟨[], []⟩ "https://x/a.pdf" ".pdf" "c" ∧
    ((Crawler.download_document (fun _ => "0123456789abcdef") (fun _ => "hash")
        (some ⟨"text/html", "body"⟩) true ⟨[], []⟩
        "https://x/a.pdf" ".pdf" "c").2).ledger.length = 1 := by
  have h := download_document_ignores_content_type (fun _ => "0123456789abcdef")
    (fun _ => "hash") true ⟨[], []⟩ "https://x/a.pdf" ".pdf" "c"
    ⟨"text/html", "body"⟩ ⟨"application/pdf", "body"⟩ (by decide) rfl
  exact ⟨h.1, h.2.1⟩

/-! Claim C3. -/

/-- Claim C3, counterexample: `get_next_page_url` contains no cycle guard.
With a single qualifying "Next" anchor whose href resolves to the current
URL itself, the function returns that same URL (not `none`), contradicting
both the "returns none when identical" and the "returned URL differs from
the current URL" parts of the claim. -/
theorem get_next_page_url_cycle_counterexample :
    Crawler.get_next_page_url [⟨"https://irdai.gov.in/web/guest/circulars", "Next"⟩]
        "https://irdai.gov.in/web/guest/circulars"
      = some "https://irdai.gov.in/web/guest/circulars" := by
  decide

/-- Claim C3, amended: `get_next_page_url` returns `none` exactly when no
qualifying next anchor exists (non-javascript href, recognized pagination
text); the returned URL may equal the current URL.  The cycle guard lives
in the caller `crawl_category`, whose next-page decision never advances
to the current URL. -/
theorem get_next_page_url_amended (anchors : List Crawler.Anchor) (current_url : String) :
    (Crawler.get_next_page_url anchors current_url = none ↔
      ∀ a ∈ anchors, Crawler.qualifiesNext a = false) ∧
    (∀ u, Crawler.crawlNextPage anchors current_url = some u → u ≠ current_url) := by
  constructor
  · induction anchors with
    | nil => simp [Crawler.get_next_page_url]
    | cons a rest ih =>
      by_cases hjs : strStartsWith (strTrim a.href) "javascript" = true
      · simp [Crawler.get_next_page_url, Crawler.qualifiesNext, hjs, ih]
      · by_cases hmem : strToLower a.text ∈ Crawler.NEXT_TEXTS
        · simp [Crawler.get_next_page_url, Crawler.qualifiesNext, hjs, hmem]
        · simp [Crawler.get_next_page_url, Crawler.qualifiesNext, hjs, hmem, ih]
  · intro u hu
    cases h : Crawler.get_next_page_url anchors current_url with
    | none => simp [Crawler.crawlNextPage, h] at hu
    | some v =>
      simp only [Crawler.crawlNextPage, h] at hu
      by_cases hv : v = current_url
      · simp [hv] at hu
      · simp only [if_neg hv] at hu
        cases hu
        exact hv

/-- Claim C3, witness: the amended theorem applied to an empty anchor
list. -/
theorem get_next_page_url_amended_witness :
    Crawler.get_next_page_url [] "https://x/p" = none ∧
      Crawler.crawlNextPage [] "https://x/p" ≠ some "https://x/p" := by
  have h := get_next_page_url_amended [] "https://x/p"
  exact ⟨h.1.mpr (by simp), fun hc => h.2 "https://x/p" hc rfl⟩

/-! Claim C8. -/

/-- Claim C8: `retrieve_relevant_chunks` against an empty collection
returns the empty list (the function is total, so no error is raised);
against a non-empty collection the number of neighbours requested from
the index, and hence of results returned, is `min n_results count`,
capped to the collection's current size. -/
theorem retrieve_relevant_chunks_empty_and_cap (dist : Ingestion.Entry → Rat)
    (coll : List Ingestion.Entry) (n_results : Nat) :
    (coll = [] → Ingestion.retrieve_relevant_chunks dist coll n_results = []) ∧
    (coll ≠ [] →
      (Ingestion.retrieve_relevant_chunks dist coll n_results).length
          = min n_results coll.length ∧
        min n_results coll.length ≤ coll.length) := by
  constructor
  · intro h
    simp [Ingestion.retrieve_relevant_chunks, h]
  · intro h
    have hne : coll.length ≠ 0 := by
      intro h0
      exact h (List.length_eq_zero.mp h0)
    constructor
    · simp only [Ingestion.retrieve_relevant_chunks, hne, if_false,
        List.length_map, List.length_take, length_sortByDist]
      omega
    · omega

/-- Claim C8, witness: the theorem applied to the empty collection and to
a one-entry collection. -/
theorem retrieve_relevant_chunks_empty_and_cap_witness :
    Ingestion.retrieve_relevant_chunks (fun _ => 0) [] 5 = [] ∧
      (Ingestion.retrieve_relevant_chunks (fun _ => 0)
        [⟨"i", "t", "s", 1, ".pdf"⟩] 5).length = min 5 1 := by
  have h1 := (retrieve_relevant_chunks_empty_and_cap (fun _ => 0) [] 5).1 rfl
  have h2 := (retrieve_relevant_chunks_empty_and_cap (fun _ => 0)
    [⟨"i", "t", "s", 1, ".pdf"⟩] 5).2 (by simp)
  exact ⟨h1, by rw [h2.1, List.length_singleton]⟩

/-! Claim C10. -/

/-- Two distinct suffixes cannot both match: if `s` ends with `t`, and `u`
is no longer than `t` but differs from the corresponding tail of `t`,
then `s` does not end with `u`. -/
theorem strEndsWith_conflict (s t u : String) (hle : u.data.length ≤ t.data.length)
    (hne : t.data.drop (t.data.length - u.data.length) ≠ u.data)
    (h : strEndsWith s t = true) : strEndsWith s u = false := by
  rw [Bool.eq_false_iff]
  intro h2
  rw [strEndsWith, decide_eq_true_eq] at h h2
  have hlen : t.data.length ≤ s.data.length := by
    have hc := congrArg List.length h
    simp only [List.length_drop] at hc
    omega
  apply hne
  have hd : (s.data.drop (s.data.length - t.data.length)).drop
      (t.data.length - u.data.length) = s.data.drop (s.data.length - u.data.length) := by
    rw [List.drop_drop]
    congr 1
    omega
  rw [h] at hd
  rw [hd, h2]

/-- Claim C10: the crawler's `DOC_TYPES` recognizes `.csv` (stored in the
excel directory) and `.doc` (stored in the word directory), yet
`run_ingestion`'s file discovery globs only `*.pdf`, `*.xlsx`, `*.xls`
and `*.docx`, so no discovered file ever carries a `.csv` or `.doc`
suffix — such files never contribute chunks — and `ingest_document`
returns 0 and leaves the collection unchanged for those extensions. -/
theorem csv_doc_never_ingested :
    ((".csv", "data/excel") ∈ Crawler.DOC_TYPES ∧
      (".doc", "data/word") ∈ Crawler.DOC_TYPES) ∧
    (∀ fs : Ingestion.FileStore, ∀ df ∈ Ingestion.discoverFiles fs,
      (strEndsWith df.1.name ".pdf" = true ∨ strEndsWith df.1.name ".xlsx" = true ∨
        strEndsWith df.1.name ".xls" = true ∨ strEndsWith df.1.name ".docx" = true) ∧
      strEndsWith df.1.name ".csv" = false ∧ strEndsWith df.1.name ".doc" = false) ∧
    (∀ (split : String → List String) (d : Ingestion.Doc) (coll : List Ingestion.Entry),
      strToLower (Ingestion.pathSuffix d.name) = ".csv" ∨
        strToLower (Ingestion.pathSuffix d.name) = ".doc" →
      Ingestion.ingest_document split d coll = (0, coll)) := by
  refine ⟨by decide, ?_, ?_⟩
  · intro fs df hdf
    have hcases : strEndsWith df.1.name ".pdf" = true ∨ strEndsWith df.1.name ".xlsx" = true ∨
        strEndsWith df.1.name ".xls" = true ∨ strEndsWith df.1.name ".docx" = true := by
      simp only [Ingestion.discoverFiles, List.mem_append, List.mem_map,
        List.mem_filter] at hdf
      simp only [or_assoc] at hdf
      obtain ⟨d, ⟨-, hd⟩, rfl⟩ | ⟨d, ⟨-, hd⟩, rfl⟩ | ⟨d, ⟨-, hd⟩, rfl⟩ | ⟨d, ⟨-, hd⟩, rfl⟩ :=
        hdf <;> simp [hd]
    refine ⟨hcases, ?_, ?_⟩
    · rcases hcases with h | h | h | h
      · exact strEndsWith_conflict _ ".pdf" ".csv" (by decide) (by decide) h
      · exact strEndsWith_conflict _ ".xlsx" ".csv" (by decide) (by decide) h
      · exact strEndsWith_conflict _ ".xls" ".csv" (by decide) (by decide) h
      · exact strEndsWith_conflict _ ".docx" ".csv" (by decide) (by decide) h
    · rcases hcases with h | h | h | h
      · exact strEndsWith_conflict _ ".pdf" ".doc" (by decide) (by decide) h
      · exact strEndsWith_conflict _ ".xlsx" ".doc" (by decide) (by decide) h
      · exact strEndsWith_conflict _ ".xls" ".doc" (by decide) (by decide) h
      · exact strEndsWith_conflict _ ".docx" ".doc" (by decide) (by decide) h
  · intro split d coll h
    rcases h with h | h <;> simp [Ingestion.ingest_document, h]

/-- Claim C10, witness: the theorem applied to a concrete store holding
one PDF file, and to a concrete `.csv` document. -/
theorem csv_doc_never_ingested_witness :
    strEndsWith "report.pdf" ".csv" = false ∧
    Ingestion.ingest_document (fun t => [t]) ⟨"table.csv", [], [], [], []⟩ [] = (0, []) := by
  have h := csv_doc_never_ingested
  exact ⟨(h.2.1 ⟨[⟨"report.pdf", [], [], [], []⟩], [], []⟩
      (⟨"report.pdf", [], [], [], []⟩, "pdf") (by decide)).2.1,
    h.2.2 (fun t => [t]) ⟨"table.csv", [], [], [], []⟩ [] (Or.inl (by decide))⟩

/-! Claim C9. -/

/-- A segment name returned by `findSegName` is never empty. -/
theorem findSegName_ne_nil (ext : String) :
    ∀ (parts : List (List Char)) (name : List Char),
      Crawler.findSegName ext parts = some name → name ≠ [] := by
  intro parts
  induction parts with
  | nil => intro name h; cases h
  | cons p rest ih =>
    intro name h
    simp only [Crawler.findSegName] at h
    split at h
    · split at h
      · rename_i hcond
        cases h
        exact hcond.1
      · exact ih name h
    · exact ih name h

/-- When no segment contains the extension, `findSegName` finds nothing. -/
theorem findSegName_none (ext : String) :
    ∀ parts : List (List Char),
      (∀ part ∈ parts, containsSub ext.data (part.map lowerChar) = false) →
      Crawler.findSegName ext parts = none := by
  intro parts
  induction parts with
  | nil => intro _; rfl
  | cons p rest ih =>
    intro h
    have hp := h p (by simp)
    simp only [Crawler.findSegName, hp, Bool.false_eq_true, if_false]
    exact ih (fun part hm => h part (by simp [hm]))

/-- Claim C9: `_extract_doc_filename` is deterministic — two invocations
on the same URL and extension (with the same external hash function)
agree — and always returns a non-empty filename; when no path segment of
the URL contains the extension, it returns the deterministic fallback
name `doc_` followed by the first 8 hex characters of the URL's content
hash and the extension. -/
theorem extract_doc_filename_deterministic (md5hex : String → String) (url ext : String) :
    Crawler.extract_doc_filename md5hex url ext
      = Crawler.extract_doc_filename md5hex url ext ∧
    (Crawler.extract_doc_filename md5hex url ext).data ≠ [] ∧
    ((∀ part ∈ splitOnChar '/' (Crawler.urlparsePath url).data,
        containsSub ext.data (part.map lowerChar) = false) →
      Crawler.extract_doc_filename md5hex url ext
        = "doc_" ++ ⟨(md5hex url).data.take 8⟩ ++ ext) := by
  refine ⟨rfl, ?_, ?_⟩
  · rw [Crawler.extract_doc_filename]
    cases h : Crawler.findSegName ext (splitOnChar '/' (Crawler.urlparsePath url).data) with
    | none =>
      intro hc
      have : ('d' :: "oc_".data ++ ((md5hex url).data.take 8 ++ ext.data)) = [] := hc
      cases this
    | some name => exact findSegName_ne_nil ext _ name h
  · intro hall
    rw [Crawler.extract_doc_filename, findSegName_none ext _ hall]

/-- Claim C9, witness: the theorem applied to a URL with no `.pdf`
segment, checking non-emptiness and the concrete fallback value. -/
theorem extract_doc_filename_deterministic_witness :
    Crawler.extract_doc_filename (fun _ => "0123456789abcdef") "https://irdai.gov.in/home" ".pdf"
      = "doc_01234567.pdf" := by
  have h := extract_doc_filename_deterministic (fun _ => "0123456789abcdef")
    "https://irdai.gov.in/home" ".pdf"
  rw [h.2.2 (by decide)]
  decide

/-! Claim C7. -/

/-- Membership characterization of the enumerate-and-filter loop shared by
the extractors: a record is produced exactly when some position `j` of the
text list holds a text longer than 50 characters, and then the record is
that text with page number `k + j`. -/
theorem mem_pagesFrom (source : String) :
    ∀ (k : Nat) (ts : List String) (r : Ingestion.PageRec),
      r ∈ Ingestion.pagesFrom source k ts ↔
        ∃ j t, ts[j]? = some t ∧ 50 < t.data.length ∧
          r = ⟨k + j, t, source⟩ := by
  intro k ts
  induction ts generalizing k with
  | nil => intro r; simp [Ingestion.pagesFrom]
  | cons t rest ih =>
    intro r
    rw [Ingestion.pagesFrom]
    constructor
    · intro hr
      rcases List.mem_append.mp hr with h1 | h2
      · by_cases hlen : 50 < t.data.length
        · rw [if_pos hlen] at h1
          simp only [List.mem_singleton] at h1
          exact ⟨0, t, by simp, hlen, by simp [h1]⟩
        · rw [if_neg hlen] at h1
          simp at h1
      · obtain ⟨j, u, hj, hu, hrr⟩ := (ih (k + 1) r).mp h2
        refine ⟨j + 1, u, by simpa using hj, hu, ?_⟩
        rw [hrr]
        have : k + 1 + j = k + (j + 1) := by omega
        rw [this]
    · rintro ⟨j, u, hj, hu, rfl⟩
      cases j with
      | zero =>
        simp only [List.getElem?_cons_zero, Option.some.injEq] at hj
        subst hj
        apply List.mem_append.mpr
        left
        rw [if_pos hu]
        simp
      | succ j =>
        apply List.mem_append.mpr
        right
        refine (ih (k + 1) _).mpr ⟨j, u, by simpa using hj, hu, ?_⟩
        have : k + 1 + j = k + (j + 1) := by omega
        rw [this]

/-- Claim C7: across all three extractor variants, a page/sheet whose
extracted text after trimming has at most 50 characters never appears in
the output, and one whose trimmed text has exactly 51 characters does
appear (as the page/sheet at its 1-based position). -/
theorem extraction_threshold (name : String) (raws : List String)
    (sheets : List (List (List (Option String)))) (paragraphs : List String)
    (tables : List (List (List String))) :
    (∀ i, i < raws.length → (strTrim (raws.getD i "")).data.length ≤ 50 →
      ∀ r ∈ Ingestion.extract_text_from_pdf name raws, r.page ≠ i + 1) ∧
    (∀ i, i < raws.length → (strTrim (raws.getD i "")).data.length = 51 →
      (⟨i + 1, strTrim (raws.getD i ""), name⟩ : Ingestion.PageRec)
        ∈ Ingestion.extract_text_from_pdf name raws) ∧
    (∀ i, i < sheets.length → (Ingestion.sheetText (sheets.getD i [])).data.length ≤ 50 →
      ∀ r ∈ Ingestion.extract_text_from_excel name sheets, r.page ≠ i + 1) ∧
    (∀ i, i < sheets.length → (Ingestion.sheetText (sheets.getD i [])).data.length = 51 →
      (⟨i + 1, Ingestion.sheetText (sheets.getD i []), name⟩ : Ingestion.PageRec)
        ∈ Ingestion.extract_text_from_excel name sheets) ∧
    ((Ingestion.wordText paragraphs tables).data.length ≤ 50 →
      Ingestion.extract_text_from_word name paragraphs tables = []) ∧
    ((Ingestion.wordText paragraphs tables).data.length = 51 →
      Ingestion.extract_text_from_word name paragraphs tables
        = [⟨1, Ingestion.wordText paragraphs tables, name⟩]) := by
  refine ⟨?_, ?_, ?_, ?_, ?_, ?_⟩
  · intro i hi hshort r hr hpage
    obtain ⟨j, t, hj, ht, rfl⟩ :=
      (mem_pagesFrom name 1 (raws.map strTrim) r).mp hr
    simp only at hpage
    have hji : j = i := by omega
    subst hji
    rw [List.getElem?_map] at hj
    have hij : raws[j]? = some (raws.getD j "") := by
      rw [List.getD_eq_getElem?_getD]
      cases hx : raws[j]? with
      | none => rw [List.getElem?_eq_none_iff] at hx; omega
      | some v => rfl
    rw [hij] at hj
    simp at hj
    rw [← hj] at ht
    rw [List.getD_eq_getElem?_getD] at hshort
    omega
  · intro i hi hlen
    refine (mem_pagesFrom name 1 (raws.map strTrim) _).mpr
      ⟨i, strTrim (raws.getD i ""), ?_, by omega, by simp [Nat.add_comm]⟩
    rw [List.getElem?_map]
    have hij : raws[i]? = some (raws.getD i "") := by
      rw [List.getD_eq_getElem?_getD]
      cases hx : raws[i]? with
      | none => rw [List.getElem?_eq_none_iff] at hx; omega
      | some v => rfl
    rw [hij]
    rfl
  · intro i hi hshort r hr hpage
    obtain ⟨j, t, hj, ht, rfl⟩ :=
      (mem_pagesFrom name 1 (sheets.map Ingestion.sheetText) r).mp hr
    simp only at hpage
    have hji : j = i := by omega
    subst hji
    rw [List.getElem?_map] at hj
    have hij : sheets[j]? = some (sheets.getD j []) := by
      rw [List.getD_eq_getElem?_getD]
      cases hx : sheets[j]? with
      | none => rw [List.getElem?_eq_none_iff] at hx; omega
      | some v => rfl
    rw [hij] at hj
    simp at hj
    rw [← hj] at ht
    rw [List.getD_eq_getElem?_getD] at hshort
    omega
  · intro i hi hlen
    refine (mem_pagesFrom name 1 (sheets.map Ingestion.sheetText) _).mpr
      ⟨i, Ingestion.sheetText (sheets.getD i []), ?_, by omega, by simp [Nat.add_comm]⟩
    rw [List.getElem?_map]
    have hij : sheets[i]? = some (sheets.getD i []) := by
      rw [List.getD_eq_getElem?_getD]
      cases hx : sheets[i]? with
      | none => rw [List.getElem?_eq_none_iff] at hx; omega
      | some v => rfl
    rw [hij]
    rfl
  · intro hshort
    rw [Ingestion.extract_text_from_word]
    rw [if_neg (by omega)]
  · intro hlen
    rw [Ingestion.extract_text_from_word]
    rw [if_pos (by omega)]

/-- Claim C7, witness: the theorem applied to a concrete two-page PDF
whose first page trims to 4 characters and whose second page holds
exactly 51 characters. -/
theorem extraction_threshold_witness :
    (∀ r ∈ Ingestion.extract_text_from_pdf "d.pdf"
        ["tiny", "AAAAAAAAAAAAAAAAAAAAAAAAAAAAAAAAAAAAAAAAAAAAAAAAAAA"], r.page ≠ 1) ∧
    (⟨2, strTrim (["tiny",
          "AAAAAAAAAAAAAAAAAAAAAAAAAAAAAAAAAAAAAAAAAAAAAAAAAAA"].getD 1 ""),
        "d.pdf"⟩ : Ingestion.PageRec)
      ∈ Ingestion.extract_text_from_pdf "d.pdf"
        ["tiny", "AAAAAAAAAAAAAAAAAAAAAAAAAAAAAAAAAAAAAAAAAAAAAAAAAAA"] := by
  have h := extraction_threshold "d.pdf"
    ["tiny", "AAAAAAAAAAAAAAAAAAAAAAAAAAAAAAAAAAAAAAAAAAAAAAAAAAA"] [] [] []
  exact ⟨h.1 0 (by decide) (by decide), h.2.1 1 (by decide) (by decide)⟩

/-! Claim C1: idempotency of the ingestion run. -/

/-- Id list of the collection after a single upsert: unchanged when the
id is already present (the payload is overwritten in place), otherwise
extended by the new id. -/
theorem ids_upsert1 (coll : List Ingestion.Entry) (e : Ingestion.Entry) :
    Ingestion.idsOf (Ingestion.upsert1 coll e)
      = if e.id ∈ Ingestion.idsOf coll then Ingestion.idsOf coll
        else Ingestion.idsOf coll ++ [e.id] := by
  have hmem : (coll.any (fun x => x.id = e.id) = true) ↔ e.id ∈ Ingestion.idsOf coll := by
    rw [List.any_eq_true]
    simp [Ingestion.idsOf, eq_comm]
  by_cases h : coll.any (fun x => x.id = e.id) = true
  · rw [Ingestion.upsert1, if_pos h, if_pos (hmem.mp h)]
    simp only [Ingestion.idsOf, List.map_map]
    apply List.map_congr_left
    intro x _
    by_cases hid : x.id = e.id <;> simp [hid]
  · rw [Ingestion.upsert1, if_neg h, if_neg (fun hc => h (hmem.mpr hc))]
    simp [Ingestion.idsOf]

/-- Upserting never removes ids. -/
theorem subset_ids_upsert1 (coll : List Ingestion.Entry) (e : Ingestion.Entry) :
    Ingestion.idsOf coll ⊆ Ingestion.idsOf (Ingestion.upsert1 coll e) := by
  rw [ids_upsert1]
  by_cases h : e.id ∈ Ingestion.idsOf coll
  · rw [if_pos h]
    exact List.Subset.refl _
  · rw [if_neg h]
    exact List.subset_append_left _ _

/-- Upserting a batch never removes ids. -/
theorem subset_ids_upsertAll :
    ∀ (es : List Ingestion.Entry) (coll : List Ingestion.Entry),
      Ingestion.idsOf coll ⊆ Ingestion.idsOf (Ingestion.upsertAll coll es) := by
  intro es
  induction es with
  | nil => intro coll; exact List.Subset.refl _
  | cons e es ih =>
    intro coll
    exact List.Subset.trans (subset_ids_upsert1 coll e) (ih (Ingestion.upsert1 coll e))

/-- The upserted entry's id is present afterwards. -/
theorem mem_ids_upsert1_self (coll : List Ingestion.Entry) (e : Ingestion.Entry) :
    e.id ∈ Ingestion.idsOf (Ingestion.upsert1 coll e) := by
  rw [ids_upsert1]
  by_cases h : e.id ∈ Ingestion.idsOf coll
  · rw [if_pos h]; exact h
  · rw [if_neg h]; simp

/-- Every id of a batch is present after upserting the batch. -/
theorem mem_ids_upsertAll_of_mem :
    ∀ (es : List Ingestion.Entry) (coll : List Ingestion.Entry) (e : Ingestion.Entry),
      e ∈ es → e.id ∈ Ingestion.idsOf (Ingestion.upsertAll coll es) := by
  intro es
  induction es with
  | nil => intro coll e h; cases h
  | cons f es ih =>
    intro coll e h
    rcases List.mem_cons.mp h with rfl | h2
    · exact subset_ids_upsertAll es (Ingestion.upsert1 coll e) (mem_ids_upsert1_self coll e)
    · exact ih (Ingestion.upsert1 coll f) e h2

/-- Upserting a batch whose ids are all already present leaves the id
list unchanged (only payloads are overwritten). -/
theorem ids_upsertAll_of_subset :
    ∀ (es : List Ingestion.Entry) (coll : List Ingestion.Entry),
      (∀ e ∈ es, e.id ∈ Ingestion.idsOf coll) →
      Ingestion.idsOf (Ingestion.upsertAll coll es) = Ingestion.idsOf coll := by
  intro es
  induction es with
  | nil => intro coll _; rfl
  | cons e es ih =>
    intro coll h
    have h1 : Ingestion.idsOf (Ingestion.upsert1 coll e) = Ingestion.idsOf coll := by
      rw [ids_upsert1, if_pos (h e (by simp))]
    have h2 := ih (Ingestion.upsert1 coll e) (fun f hf => by
      rw [h1]
      exact h f (by simp [hf]))
    calc Ingestion.idsOf (Ingestion.upsertAll coll (e :: es))
        = Ingestion.idsOf (Ingestion.upsertAll (Ingestion.upsert1 coll e) es) := rfl
      _ = Ingestion.idsOf (Ingestion.upsert1 coll e) := h2
      _ = Ingestion.idsOf coll := h1

/-- Collection component of `ingest_document`: either the chunk entries
were upserted, or nothing was upserted and the document has no chunk
entries at all. -/
theorem ingest_document_coll (split : String → List String) (d : Ingestion.Doc)
    (coll : List Ingestion.Entry) :
    (Ingestion.ingest_document split d coll).2
        = Ingestion.upsertAll coll (Ingestion.chunkEntries split d) ∨
      ((Ingestion.ingest_document split d coll).2 = coll ∧
        Ingestion.chunkEntries split d = []) := by
  by_cases h1 : strToLower (Ingestion.pathSuffix d.name)
      ∈ ([".pdf", ".xlsx", ".xls", ".docx"] : List String)
  · by_cases h2 : Ingestion.docPages d = []
    · right
      refine ⟨by simp [Ingestion.ingest_document, h1, h2], ?_⟩
      simp [Ingestion.chunkEntries, Ingestion.chunk_pages, h2]
    · by_cases h3 : Ingestion.chunk_pages split (Ingestion.docPages d) = []
      · right
        refine ⟨by simp [Ingestion.ingest_document, h1, h2, h3], ?_⟩
        simp [Ingestion.chunkEntries, h3]
      · left
        simp [Ingestion.ingest_document, h1, h2, h3]
  · right
    refine ⟨by simp [Ingestion.ingest_document, h1], ?_⟩
    have hd : Ingestion.docPages d = [] := by
      simp only [List.mem_cons, List.not_mem_nil, or_false, not_or] at h1
      obtain ⟨a, b, c, d'⟩ := h1
      rw [Ingestion.docPages]
      rw [if_neg a, if_neg (by tauto), if_neg d']
    simp [Ingestion.chunkEntries, Ingestion.chunk_pages, hd]

/-- Ingesting never removes ids. -/
theorem subset_ids_ingest (split : String → List String) (d : Ingestion.Doc)
    (coll : List Ingestion.Entry) :
    Ingestion.idsOf coll ⊆ Ingestion.idsOf (Ingestion.ingest_document split d coll).2 := by
  rcases ingest_document_coll split d coll with h | ⟨h, _⟩
  · rw [h]; exact subset_ids_upsertAll _ _
  · rw [h]
    exact List.Subset.refl _

/-- Every chunk id of an ingested document is present afterwards. -/
theorem mem_ids_ingest (split : String → List String) (d : Ingestion.Doc)
    (coll : List Ingestion.Entry) :
    ∀ i ∈ Ingestion.docIds split d,
      i ∈ Ingestion.idsOf (Ingestion.ingest_document split d coll).2 := by
  intro i hi
  rcases ingest_document_coll split d coll with h | ⟨_, hempty⟩
  · rw [h]
    rw [Ingestion.docIds, List.mem_map] at hi
    obtain ⟨e, he, rfl⟩ := hi
    exact mem_ids_upsertAll_of_mem _ coll e he
  · rw [Ingestion.docIds, hempty] at hi
    cases hi

/-- A file whose presumptive first-chunk id is in the existing set is
skipped: the loop step is the identity. -/
theorem ingestStep_skip (split : String → List String) (ex : List String)
    (acc : Ingestion.RunAcc) (df : Ingestion.Doc × String)
    (h : Ingestion.firstId df.1 ∈ ex) :
    Ingestion.ingestStep split ex acc df = acc := by
  rw [Ingestion.ingestStep, if_pos h]

/-- Collection component of a non-skipping loop step. -/
theorem ingestStep_coll (split : String → List String) (ex : List String)
    (acc : Ingestion.RunAcc) (df : Ingestion.Doc × String)
    (h : Ingestion.firstId df.1 ∉ ex) :
    (Ingestion.ingestStep split ex acc df).coll
      = (Ingestion.ingest_document split df.1 acc.coll).2 := by
  rw [Ingestion.ingestStep, if_neg h]
  by_cases h2 : 0 < (Ingestion.ingest_document split df.1 acc.coll).1 <;> simp [h2]

/-- The fold over discovered files never removes ids. -/
theorem subset_ids_fold (split : String → List String) (ex : List String) :
    ∀ (files : List (Ingestion.Doc × String)) (acc : Ingestion.RunAcc),
      Ingestion.idsOf acc.coll ⊆
        Ingestion.idsOf ((files.foldl (Ingestion.ingestStep split ex) acc).coll) := by
  intro files
  induction files with
  | nil => intro acc; exact List.Subset.refl _
  | cons df files ih =>
    intro acc
    refine List.Subset.trans ?_ (ih (Ingestion.ingestStep split ex acc df))
    by_cases h : Ingestion.firstId df.1 ∈ ex
    · rw [ingestStep_skip split ex acc df h]
      exact List.Subset.refl _
    · rw [ingestStep_coll split ex acc df h]
      exact subset_ids_ingest split df.1 acc.coll

/-- After a run, every discovered file was either skipped on the basis of
the pre-run existing set, or all of its chunk ids are present in the
final collection. -/
theorem fold_covers (split : String → List String) (ex : List String) :
    ∀ (files : List (Ingestion.Doc × String)) (acc : Ingestion.RunAcc),
      ∀ df ∈ files, Ingestion.firstId df.1 ∈ ex ∨
        ∀ i ∈ Ingestion.docIds split df.1,
          i ∈ Ingestion.idsOf ((files.foldl (Ingestion.ingestStep split ex) acc).coll) := by
  intro files
  induction files with
  | nil => intro acc df h; cases h
  | cons g files ih =>
    intro acc df hdf
    rcases List.mem_cons.mp hdf with rfl | h
    · by_cases hg : Ingestion.firstId df.1 ∈ ex
      · exact Or.inl hg
      · right
        intro i hi
        have h1 : i ∈ Ingestion.idsOf ((Ingestion.ingestStep split ex acc df).coll) := by
          rw [ingestStep_coll split ex acc df hg]
          exact mem_ids_ingest split df.1 acc.coll i hi
        exact subset_ids_fold split ex files (Ingestion.ingestStep split ex acc df) h1
    · exact ih (Ingestion.ingestStep split ex acc g) df h

/-- On a second run whose existing set equals the current id list, and in
which every file is either skipped or contributes only ids already in
that set, the id list never changes. -/
theorem fold_no_new (split : String → List String) (S : List String) :
    ∀ (files : List (Ingestion.Doc × String)) (acc : Ingestion.RunAcc),
      Ingestion.idsOf acc.coll = S →
      (∀ df ∈ files, Ingestion.firstId df.1 ∈ S ∨
        ∀ i ∈ Ingestion.docIds split df.1, i ∈ S) →
      Ingestion.idsOf ((files.foldl (Ingestion.ingestStep split S) acc).coll) = S := by
  intro files
  induction files with
  | nil => intro acc hacc _; exact hacc
  | cons df files ih =>
    intro acc hacc hall
    have hstep : Ingestion.idsOf ((Ingestion.ingestStep split S acc df).coll) = S := by
      by_cases hg : Ingestion.firstId df.1 ∈ S
      · rw [ingestStep_skip split S acc df hg]
        exact hacc
      · rcases hall df (by simp) with h | hids
        · exact absurd h hg
        · rw [ingestStep_coll split S acc df hg]
          rcases ingest_document_coll split df.1 acc.coll with he | ⟨he, _⟩
          · rw [he, ids_upsertAll_of_subset]
            · exact hacc
            · intro e hee
              rw [hacc]
              exact hids e.id (by rw [Ingestion.docIds]; exact List.mem_map_of_mem _ hee)
          · rw [he]; exact hacc
    exact ih (Ingestion.ingestStep split S acc df) hstep
      (fun df' h' => hall df' (by simp [h']))

/-- Claim C1: ingestion is idempotent.  Over an unchanged document set, a
second `run_ingestion` leaves the index's id list — and hence its total
chunk count — exactly as after the first run; and on the second run,
every file whose presumptive first-chunk id `stem_p1_c0` is already in
the index is skipped entirely (the loop step is the identity on it). -/
theorem run_ingestion_idempotent (split : String → List String) (fs : Ingestion.FileStore)
    (coll0 : List Ingestion.Entry) :
    Ingestion.idsOf (Ingestion.run_ingestion split fs
        (Ingestion.run_ingestion split fs coll0).2).2
      = Ingestion.idsOf (Ingestion.run_ingestion split fs coll0).2 ∧
    (Ingestion.run_ingestion split fs (Ingestion.run_ingestion split fs coll0).2).2.length
      = (Ingestion.run_ingestion split fs coll0).2.length ∧
    (∀ (acc : Ingestion.RunAcc) (df : Ingestion.Doc × String), df ∈ Ingestion.discoverFiles fs →
      Ingestion.firstId df.1 ∈ Ingestion.idsOf (Ingestion.run_ingestion split fs coll0).2 →
      Ingestion.ingestStep split
        (Ingestion.idsOf (Ingestion.run_ingestion split fs coll0).2) acc df = acc) := by
  have hrun : ∀ c : List Ingestion.Entry, (Ingestion.run_ingestion split fs c).2
      = ((Ingestion.discoverFiles fs).foldl
          (Ingestion.ingestStep split (Ingestion.idsOf c)) ⟨0, 0, 0, 0, 0, c⟩).coll := by
    intro c; rfl
  have hmono : Ingestion.idsOf coll0 ⊆
      Ingestion.idsOf (Ingestion.run_ingestion split fs coll0).2 := by
    rw [hrun]
    exact subset_ids_fold split (Ingestion.idsOf coll0) (Ingestion.discoverFiles fs)
      ⟨0, 0, 0, 0, 0, coll0⟩
  have hcov : ∀ df ∈ Ingestion.discoverFiles fs,
      Ingestion.firstId df.1 ∈ Ingestion.idsOf (Ingestion.run_ingestion split fs coll0).2 ∨
      ∀ i ∈ Ingestion.docIds split df.1,
        i ∈ Ingestion.idsOf (Ingestion.run_ingestion split fs coll0).2 := by
    intro df hdf
    rcases fold_covers split (Ingestion.idsOf coll0) (Ingestion.discoverFiles fs)
        ⟨0, 0, 0, 0, 0, coll0⟩ df hdf with h | h
    · exact Or.inl (hmono h)
    · right
      rw [hrun]
      exact h
  have hids : Ingestion.idsOf (Ingestion.run_ingestion split fs
      (Ingestion.run_ingestion split fs coll0).2).2
      = Ingestion.idsOf (Ingestion.run_ingestion split fs coll0).2 := by
    rw [hrun (Ingestion.run_ingestion split fs coll0).2]
    exact fold_no_new split (Ingestion.idsOf (Ingestion.run_ingestion split fs coll0).2)
      (Ingestion.discoverFiles fs) ⟨0, 0, 0, 0, 0, (Ingestion.run_ingestion split fs coll0).2⟩
      rfl hcov
  refine ⟨hids, ?_, ?_⟩
  · have := congrArg List.length hids
    simpa [Ingestion.idsOf] using this
  · intro acc df _ hfi
    exact ingestStep_skip split _ acc df hfi

/-- Claim C1, witness: the theorem applied to a store holding one
single-page PDF, starting from the empty index. -/
theorem run_ingestion_idempotent_witness :
    Ingestion.idsOf (Ingestion.run_ingestion (fun t => [t])
        ⟨[⟨"a.pdf", ["AAAAAAAAAAAAAAAAAAAAAAAAAAAAAAAAAAAAAAAAAAAAAAAAAAA"], [], [], []⟩], [], []⟩
        (Ingestion.run_ingestion (fun t => [t])
          ⟨[⟨"a.pdf", ["AAAAAAAAAAAAAAAAAAAAAAAAAAAAAAAAAAAAAAAAAAAAAAAAAAA"], [], [], []⟩],
            [], []⟩ []).2).2
      = Ingestion.idsOf (Ingestion.run_ingestion (fun t => [t])
        ⟨[⟨"a.pdf", ["AAAAAAAAAAAAAAAAAAAAAAAAAAAAAAAAAAAAAAAAAAAAAAAAAAA"], [], [], []⟩], [], []⟩
        []).2 ∧
    Ingestion.ingestStep (fun t => [t])
        (Ingestion.idsOf (Ingestion.run_ingestion (fun t => [t])
          ⟨[⟨"a.pdf", ["AAAAAAAAAAAAAAAAAAAAAAAAAAAAAAAAAAAAAAAAAAAAAAAAAAA"], [], [], []⟩],
            [], []⟩ []).2)
        ⟨0, 0, 0, 0, 0, []⟩
        (⟨"a.pdf", ["AAAAAAAAAAAAAAAAAAAAAAAAAAAAAAAAAAAAAAAAAAAAAAAAAAA"], [], [], []⟩, "pdf")
      = ⟨0, 0, 0, 0, 0, []⟩ := by
  have h := run_ingestion_idempotent (fun t => [t])
    ⟨[⟨"a.pdf", ["AAAAAAAAAAAAAAAAAAAAAAAAAAAAAAAAAAAAAAAAAAAAAAAAAAA"], [], [], []⟩], [], []⟩
    []
  exact ⟨h.1, h.2.2 ⟨0, 0, 0, 0, 0, []⟩
    (⟨"a.pdf", ["AAAAAAAAAAAAAAAAAAAAAAAAAAAAAAAAAAAAAAAAAAAAAAAAAAA"], [], [], []⟩, "pdf")
    (by decide) (by decide)⟩

/-! Claim C5: chunk-id uniqueness. -/

/-- Decimal digit characters are never an underscore. -/
theorem digitChar_ne_underscore : ∀ k, digitChar k ≠ '_' := by
  intro k
  rw [digitChar.eq_def]
  split <;> decide

/-- Decimal renderings contain no underscore. -/
theorem natToDecGo_no_underscore : ∀ fuel n, ∀ c ∈ natToDecGo fuel n, c ≠ '_' := by
  intro fuel
  induction fuel with
  | zero => intro n c hc; cases hc
  | succ fuel ih =>
    intro n c hc
    rw [natToDecGo] at hc
    by_cases h : n < 10
    · rw [if_pos h] at hc
      simp only [List.mem_singleton] at hc
      rw [hc]
      exact digitChar_ne_underscore n
    · rw [if_neg h] at hc
      rcases List.mem_append.mp hc with h1 | h2
      · exact ih (n / 10) c h1
      · simp only [List.mem_singleton] at h2
        rw [h2]
        exact digitChar_ne_underscore _

/-- Decimal renderings are non-empty. -/
theorem natToDecGo_ne_nil (fuel n : Nat) : natToDecGo (fuel + 1) n ≠ [] := by
  rw [natToDecGo]
  by_cases h : n < 10
  · rw [if_pos h]; simp
  · rw [if_neg h]; simp

/-- Folding the decimal value over an appended digit. -/
theorem decValue_append (l : List Char) (c : Char) :
    decValue (l ++ [c]) = 10 * decValue l + digitVal c := by
  rw [decValue, decValue, List.foldl_append]
  rfl

/-- Digit characters decode to their value. -/
theorem digitVal_digitChar : ∀ k, k < 10 → digitVal (digitChar k) = k := by decide

/-- The decimal rendering round-trips through `decValue` whenever the
fuel exceeds the value. -/
theorem decValue_natToDecGo : ∀ fuel n, n < fuel → decValue (natToDecGo fuel n) = n := by
  intro fuel
  induction fuel with
  | zero => intro n h; exact absurd h (Nat.not_lt_zero n)
  | succ fuel ih =>
    intro n h
    rw [natToDecGo]
    by_cases h10 : n < 10
    · rw [if_pos h10]
      have : decValue [digitChar n] = digitVal (digitChar n) := by
        rw [decValue]
        simp [List.foldl]
      rw [this, digitVal_digitChar n h10]
    · rw [if_neg h10]
      rw [decValue_append]
      have hdiv : n / 10 < fuel := by
        have := Nat.div_lt_self (by omega : 0 < n) (by omega : (1 : Nat) < 10)
        omega
      rw [ih (n / 10) hdiv, digitVal_digitChar (n % 10) (Nat.mod_lt n (by omega))]
      omega

/-- Cancellation at a marker underscore when the prefixes on its left are
underscore-free: the split of a list as clean-part, underscore, rest is
unique. -/
theorem firstMarker_cancel (x y u v : List Char)
    (hx : ∀ c ∈ x, c ≠ '_') (hy : ∀ c ∈ y, c ≠ '_')
    (h : x ++ '_' :: u = y ++ '_' :: v) : x = y ∧ u = v := by
  have h1 := congrArg (List.takeWhile (fun c => c ≠ '_')) h
  have h2 := congrArg (List.dropWhile (fun c => c ≠ '_')) h
  rw [List.takeWhile_append_of_pos (by intro c hc; simpa using hx c hc),
    List.takeWhile_append_of_pos (by intro c hc; simpa using hy c hc),
    List.takeWhile_cons_of_neg (by simp), List.takeWhile_cons_of_neg (by simp)] at h1
  rw [List.dropWhile_append_of_pos (by intro c hc; simpa using hx c hc),
    List.dropWhile_append_of_pos (by intro c hc; simpa using hy c hc),
    List.dropWhile_cons_of_neg (by simp), List.dropWhile_cons_of_neg (by simp)] at h2
  refine ⟨by simpa using h1, ?_⟩
  have := h2
  simp only [List.cons.injEq] at this
  exact this.2

/-- Cancellation at a marker underscore when the suffixes on its right
are underscore-free (split at the last underscore). -/
theorem lastMarker_cancel (x y u v : List Char)
    (hu : ∀ c ∈ u, c ≠ '_') (hv : ∀ c ∈ v, c ≠ '_')
    (h : x ++ '_' :: u = y ++ '_' :: v) : x = y ∧ u = v := by
  have hr := congrArg List.reverse h
  simp only [List.reverse_append, List.reverse_cons, List.append_assoc,
    List.singleton_append] at hr
  obtain ⟨h1, h2⟩ := firstMarker_cancel u.reverse v.reverse x.reverse y.reverse
    (by intro c hc; exact hu c (List.mem_reverse.mp hc))
    (by intro c hc; exact hv c (List.mem_reverse.mp hc)) hr
  exact ⟨List.reverse_inj.mp h2, List.reverse_inj.mp h1⟩

/-- Unpacked character list of a chunk id. -/
theorem encId_data (stem : String) (p c : Nat) :
    (Ingestion.encId stem p c).data
      = stem.data ++ '_' :: 'p' :: ((natToDec p).data ++ '_' :: 'c' :: (natToDec c).data) := by
  have hap : ∀ s t : String, (s ++ t).data = s.data ++ t.data := by
    intro s t
    cases s
    cases t
    rfl
  rw [Ingestion.encId]
  rw [hap, hap, hap, hap]
  have e1 : ("_p" : String).data = ['_', 'p'] := rfl
  have e2 : ("_c" : String).data = ['_', 'c'] := rfl
  rw [e1, e2]
  simp [List.append_assoc]

/-- Injectivity of the chunk-id format: two chunk ids agree exactly when
their stem, page and chunk index all agree — the decimal components
contain no underscore, so the two underscore markers split the id
unambiguously from the right. -/
theorem encId_inj (s1 s2 : String) (p1 c1 p2 c2 : Nat)
    (h : Ingestion.encId s1 p1 c1 = Ingestion.encId s2 p2 c2) :
    s1 = s2 ∧ p1 = p2 ∧ c1 = c2 := by
  have hd := congrArg String.data h
  rw [encId_data, encId_data] at hd
  have hd2 : (s1.data ++ '_' :: 'p' :: (natToDec p1).data) ++ '_' :: 'c' :: (natToDec c1).data
      = (s2.data ++ '_' :: 'p' :: (natToDec p2).data) ++ '_' :: 'c' :: (natToDec c2).data := by
    simpa [List.append_assoc] using hd
  have hcu : ∀ (n : Nat), ∀ ch ∈ 'c' :: (natToDec n).data, ch ≠ '_' := by
    intro n ch hch
    rcases List.mem_cons.mp hch with rfl | hm
    · decide
    · exact natToDecGo_no_underscore (n + 1) n ch hm
  obtain ⟨hL, hR⟩ := lastMarker_cancel _ _ _ _ (hcu c1) (hcu c2) hd2
  have hpu : ∀ (n : Nat), ∀ ch ∈ 'p' :: (natToDec n).data, ch ≠ '_' := by
    intro n ch hch
    rcases List.mem_cons.mp hch with rfl | hm
    · decide
    · exact natToDecGo_no_underscore (n + 1) n ch hm
  obtain ⟨hs, hp⟩ := lastMarker_cancel _ _ _ _ (hpu p1) (hpu p2) hL
  have hp2 : (natToDec p1).data = (natToDec p2).data := by
    simpa using hp
  have hc2 : (natToDec c1).data = (natToDec c2).data := by
    simpa using hR
  refine ⟨?_, ?_, ?_⟩
  · cases s1
    cases s2
    exact congrArg String.mk (by simpa using hs)
  · have a1 := decValue_natToDecGo (p1 + 1) p1 (by omega)
    have a2 := decValue_natToDecGo (p2 + 1) p2 (by omega)
    rw [show (natToDec p1).data = natToDecGo (p1 + 1) p1 from rfl,
      show (natToDec p2).data = natToDecGo (p2 + 1) p2 from rfl] at hp2
    rw [hp2] at a1
    omega
  · have a1 := decValue_natToDecGo (c1 + 1) c1 (by omega)
    have a2 := decValue_natToDecGo (c2 + 1) c2 (by omega)
    rw [show (natToDec c1).data = natToDecGo (c1 + 1) c1 from rfl,
      show (natToDec c2).data = natToDecGo (c2 + 1) c2 from rfl] at hc2
    rw [hc2] at a1
    omega

/-- Every page produced by the enumerate-and-filter loop carries a page
number at least the starting index. -/
theorem pagesFrom_page_ge (source : String) :
    ∀ (k : Nat) (ts : List String), ∀ r ∈ Ingestion.pagesFrom source k ts, k ≤ r.page := by
  intro k ts
  induction ts generalizing k with
  | nil => intro r hr; cases hr
  | cons t rest ih =>
    intro r hr
    rw [Ingestion.pagesFrom] at hr
    rcases List.mem_append.mp hr with h1 | h2
    · by_cases hl : 50 < t.data.length
      · rw [if_pos hl] at h1
        simp only [List.mem_singleton] at h1
        rw [h1]
      · rw [if_neg hl] at h1
        cases h1
    · have := ih (k + 1) r h2
      omega

/-- Page numbers are strictly increasing along the extractor output. -/
theorem pagesFrom_pairwise (source : String) :
    ∀ (k : Nat) (ts : List String),
      (Ingestion.pagesFrom source k ts).Pairwise (fun a b => a.page < b.page) := by
  intro k ts
  induction ts generalizing k with
  | nil => exact List.Pairwise.nil
  | cons t rest ih =>
    rw [Ingestion.pagesFrom]
    rw [List.pairwise_append]
    refine ⟨?_, ih (k + 1), ?_⟩
    · by_cases hl : 50 < t.data.length
      · rw [if_pos hl]
        exact List.pairwise_singleton _ _
      · rw [if_neg hl]
        exact List.Pairwise.nil
    · intro a ha b hb
      have hb2 := pagesFrom_page_ge source (k + 1) rest b hb
      by_cases hl : 50 < t.data.length
      · rw [if_pos hl] at ha
        simp only [List.mem_singleton] at ha
        rw [ha]
        simpa using hb2
      · rw [if_neg hl] at ha
        cases ha

/-- Extracted pages of any document have strictly increasing page
numbers, whatever the extension dispatch selects. -/
theorem docPages_pairwise (d : Ingestion.Doc) :
    (Ingestion.docPages d).Pairwise (fun a b => a.page < b.page) := by
  rw [Ingestion.docPages]
  by_cases h1 : strToLower (Ingestion.pathSuffix d.name) = ".pdf"
  · rw [if_pos h1]
    exact pagesFrom_pairwise d.name 1 _
  · rw [if_neg h1]
    by_cases h2 : strToLower (Ingestion.pathSuffix d.name) = ".xlsx" ∨
        strToLower (Ingestion.pathSuffix d.name) = ".xls"
    · rw [if_pos h2]
      exact pagesFrom_pairwise d.name 1 _
    · rw [if_neg h2]
      by_cases h3 : strToLower (Ingestion.pathSuffix d.name) = ".docx"
      · rw [if_pos h3]
        rw [Ingestion.extract_text_from_word]
        by_cases h4 : 50 < (Ingestion.wordText d.paragraphs d.tables).data.length
        · rw [if_pos h4]
          exact List.pairwise_singleton _ _
        · rw [if_neg h4]
          exact List.Pairwise.nil
      · rw [if_neg h3]
        exact List.Pairwise.nil

/-- Enumeration indices are strictly increasing and bounded below. -/
theorem enumFrom_fst_ge {α : Type} :
    ∀ (k : Nat) (l : List α), ∀ x ∈ List.enumFrom k l, k ≤ x.1 := by
  intro k l
  induction l generalizing k with
  | nil => intro x hx; cases hx
  | cons a rest ih =>
    intro x hx
    rw [List.enumFrom_cons] at hx
    rcases List.mem_cons.mp hx with rfl | h
    · exact Nat.le_refl k
    · have := ih (k + 1) x h
      omega

/-- Enumeration indices are pairwise strictly increasing. -/
theorem enumFrom_pairwise {α : Type} :
    ∀ (k : Nat) (l : List α), (List.enumFrom k l).Pairwise (fun a b => a.1 < b.1) := by
  intro k l
  induction l generalizing k with
  | nil => exact List.Pairwise.nil
  | cons a rest ih =>
    rw [List.enumFrom_cons]
    rw [List.pairwise_cons]
    refine ⟨?_, ih (k + 1)⟩
    intro x hx
    have := enumFrom_fst_ge (k + 1) rest x hx
    omega

/-- Two distinct chunks of one document never share both page number and
chunk index: within a page the chunk indices differ, and across pages the
page numbers differ. -/
theorem chunk_pages_pairwise (split : String → List String) (pages : List Ingestion.PageRec)
    (hp : pages.Pairwise (fun a b => a.page < b.page)) :
    (Ingestion.chunk_pages split pages).Pairwise
      (fun a b => a.page ≠ b.page ∨ a.chunk ≠ b.chunk) := by
  rw [Ingestion.chunk_pages, List.pairwise_flatMap]
  constructor
  · intro p _
    rw [List.pairwise_map]
    rw [List.enum]
    apply List.Pairwise.imp ?_ (enumFrom_pairwise 0 (split p.text))
    intro a b hab
    dsimp only
    right
    omega
  · apply List.Pairwise.imp ?_ hp
    intro p q hpq x hx y hy
    left
    simp only [List.mem_map] at hx hy
    obtain ⟨ix, _, rfl⟩ := hx
    obtain ⟨iy, _, rfl⟩ := hy
    simpa using Nat.ne_of_lt hpq

/-- The chunk ids of one document are pairwise distinct. -/
theorem docIds_nodup (split : String → List String) (d : Ingestion.Doc) :
    (Ingestion.docIds split d).Nodup := by
  rw [Ingestion.docIds, Ingestion.chunkEntries, List.map_map]
  rw [List.Nodup]
  apply List.Pairwise.map
    (fun c => Ingestion.encId (Ingestion.pathStem d.name) c.page c.chunk)
    ?_ (chunk_pages_pairwise split (Ingestion.docPages d) (docPages_pairwise d))
  intro a b hab heq
  obtain ⟨_, hpeq, hceq⟩ := encId_inj _ _ _ _ _ _ heq
  rcases hab with h | h
  · exact h hpeq
  · exact h hceq

/-- Every chunk id of a document is a chunk id over the document's stem. -/
theorem docIds_stem (split : String → List String) (d : Ingestion.Doc) :
    ∀ i ∈ Ingestion.docIds split d,
      ∃ p c, i = Ingestion.encId (Ingestion.pathStem d.name) p c := by
  intro i hi
  rw [Ingestion.docIds, Ingestion.chunkEntries, List.map_map, List.mem_map] at hi
  obtain ⟨ch, _, rfl⟩ := hi
  exact ⟨ch.page, ch.chunk, rfl⟩

/-- Claim C5, counterexample: chunk ids are derived from the file stem
only, so two files sharing a stem collide.  A store holding `report.pdf`
and `report.xlsx`, each with one sufficiently long page, produces the id
`report_p1_c0` twice within a single run — the ids of one run are not
pairwise distinct. -/
theorem chunk_id_uniqueness_counterexample :
    Ingestion.runProducedIds (fun t => [t])
        ⟨[⟨"report.pdf", ["AAAAAAAAAAAAAAAAAAAAAAAAAAAAAAAAAAAAAAAAAAAAAAAAAAA"], [], [], []⟩],
          [⟨"report.xlsx", [],
            [[[some "AAAAAAAAAAAAAAAAAAAAAAAAAAAAAAAAAAAAAAAAAAAAAAAAAAA"]]], [], []⟩], []⟩ []
      = ["report_p1_c0", "report_p1_c0"] ∧
    ¬ (["report_p1_c0", "report_p1_c0"] : List String).Nodup := by
  exact ⟨by decide, by decide⟩

/-- Claim C5, amended: within any single file the derived chunk ids are
pairwise distinct, and across the files of a run they are pairwise
distinct provided the discovered files have pairwise distinct stems (two
files sharing a stem, such as `report.pdf` and `report.xlsx`, can
collide). -/
theorem chunk_id_uniqueness_amended (split : String → List String)
    (fs : Ingestion.FileStore) (coll : List Ingestion.Entry) :
    (∀ df ∈ Ingestion.discoverFiles fs, (Ingestion.docIds split df.1).Nodup) ∧
    ((Ingestion.discoverFiles fs).Pairwise
        (fun a b => Ingestion.pathStem a.1.name ≠ Ingestion.pathStem b.1.name) →
      (Ingestion.runProducedIds split fs coll).Nodup) := by
  constructor
  · intro df _
    exact docIds_nodup split df.1
  · intro hstems
    rw [Ingestion.runProducedIds, List.nodup_flatMap]
    constructor
    · intro df _
      by_cases h : Ingestion.firstId df.1 ∈ Ingestion.idsOf coll
      · rw [if_pos h]
        exact List.nodup_nil
      · rw [if_neg h]
        exact docIds_nodup split df.1
    · apply List.Pairwise.imp ?_ hstems
      intro a b hne
      intro i hia hib
      dsimp only at hia hib
      have hia2 : i ∈ Ingestion.docIds split a.1 := by
        by_cases h : Ingestion.firstId a.1 ∈ Ingestion.idsOf coll
        · rw [if_pos h] at hia; cases hia
        · rwa [if_neg h] at hia
      have hib2 : i ∈ Ingestion.docIds split b.1 := by
        by_cases h : Ingestion.firstId b.1 ∈ Ingestion.idsOf coll
        · rw [if_pos h] at hib; cases hib
        · rwa [if_neg h] at hib
      obtain ⟨p, c, rfl⟩ := docIds_stem split a.1 i hia2
      obtain ⟨p2, c2, heq⟩ := docIds_stem split b.1 _ hib2
      exact hne (encId_inj _ _ _ _ _ _ heq).1

/-- Claim C5, witness: the amended theorem applied to a store holding two
files with distinct stems. -/
theorem chunk_id_uniqueness_amended_witness :
    (Ingestion.docIds (fun t => [t])
      ⟨"a.pdf", ["AAAAAAAAAAAAAAAAAAAAAAAAAAAAAAAAAAAAAAAAAAAAAAAAAAA"], [], [], []⟩).Nodup ∧
    (Ingestion.runProducedIds (fun t => [t])
      ⟨[⟨"a.pdf", ["AAAAAAAAAAAAAAAAAAAAAAAAAAAAAAAAAAAAAAAAAAAAAAAAAAA"], [], [], []⟩],
        [⟨"b.xlsx", [],
          [[[some "AAAAAAAAAAAAAAAAAAAAAAAAAAAAAAAAAAAAAAAAAAAAAAAAAAA"]]], [], []⟩], []⟩
      []).Nodup := by
  have h := chunk_id_uniqueness_amended (fun t => [t])
    ⟨[⟨"a.pdf", ["AAAAAAAAAAAAAAAAAAAAAAAAAAAAAAAAAAAAAAAAAAAAAAAAAAA"], [], [], []⟩],
      [⟨"b.xlsx", [],
        [[[some "AAAAAAAAAAAAAAAAAAAAAAAAAAAAAAAAAAAAAAAAAAAAAAAAAAA"]]], [], []⟩], []⟩ []
  exact ⟨h.1 (⟨"a.pdf", ["AAAAAAAAAAAAAAAAAAAAAAAAAAAAAAAAAAAAAAAAAAAAAAAAAAA"], [], [], []⟩,
      "pdf") (by decide),
    h.2 (by decide)⟩

end IRDAI
